import Mathlib

/-!
# Verification of tinycrypt (`src/lib.rs`)

Shallow embedding of the tinycrypt library: password-based symmetric
encryption built from three external primitives (argon2 `hash_raw`,
AES-256-GCM-SIV `encrypt`/`decrypt`, bincode
`serialize`/`deserialize`) composed by two public functions
`encrypt` and `decrypt` and classified by the error enum
`CryptographyError`.

Bytes are modelled as `List Nat` (each entry a byte value).  The
bincode wire format for the `EncryptedFile` struct is modelled
concretely (bincode 1.x default options: fixed-width little-endian
integers, a `u64` length for `Vec<u8>`, raw bytes for the fixed
arrays, trailing bytes permitted by the crate's free `deserialize`
function).  The cryptographic primitives are kept abstract inside a
`Primitives` structure whose propositional fields record only the
contracts the crates document unconditionally: argon2 returns a hash
of exactly the configured length, and the AEAD appends a 16-byte tag
(so ciphertext length = plaintext length + 16) and decrypts its own
output.  Randomness (`OsRng.fill_bytes` for the 32-byte salt and the
12-byte nonce) is modelled by passing the drawn bytes as explicit
arguments.
-/

namespace Tinycrypt

/-- The error enum from `src/lib.rs` lines 42-48. -/
inductive CryptographyError where
  | decodingFailure
  | encodingFailure
  | keyGenerationFailure
  | incorrectPassword
deriving DecidableEq, Repr

/-- The `EncryptedFile` struct from `src/lib.rs` lines 67-72.  In Rust
`nonce` is `[u8; 12]` and `salt` is `[u8; 32]`; those fixed lengths are
carried as hypotheses where a statement needs them. -/
structure EncryptedFile where
  data : List Nat
  nonce : List Nat
  salt : List Nat
deriving DecidableEq, Repr

/-- Little-endian encoding of a `u64` value into 8 bytes, as bincode
writes the `Vec<u8>` length with fixed-int encoding. -/
def u64ToLEBytes (n : Nat) : List Nat :=
  (List.range 8).map fun i => n / 256 ^ i % 256

/-- Little-endian decoding of bytes back into a natural number. -/
def leBytesToU64 (bs : List Nat) : Nat :=
  bs.foldr (fun b acc => acc * 256 + b) 0

/-- The serialized form bincode 1.x (default options) produces for
`EncryptedFile`: a `u64` little-endian byte count for `data`, the data
bytes, then the 12 nonce bytes and 32 salt bytes with no prefix
(serde fixed-size arrays). -/
def serializeEncryptedFile (f : EncryptedFile) : List Nat :=
  u64ToLEBytes f.data.length ++ f.data ++ f.nonce ++ f.salt

/-- Model of `bincode::serialize(&file)` at `src/lib.rs` line 111.  It
returns a `Result`; with the default (unlimited) options it cannot
fail for this struct, so the model is `some` of the wire bytes. -/
def bincodeSerialize (f : EncryptedFile) : Option (List Nat) :=
  some (serializeEncryptedFile f)

/-- Model of `bincode::deserialize::<EncryptedFile>(data)` at
`src/lib.rs` lines 127-128: read the 8-byte little-endian length, then
that many data bytes, then 12 nonce bytes, then 32 salt bytes, failing
whenever the input is too short at any stage; trailing bytes are
permitted (bincode's free `deserialize` uses `allow_trailing_bytes`). -/
def bincodeDeserialize (bs : List Nat) : Option EncryptedFile :=
  if bs.length < 8 then none else
  let len := leBytesToU64 (bs.take 8)
  let r1 := bs.drop 8
  if r1.length < len then none else
  let data := r1.take len
  let r2 := r1.drop len
  if r2.length < 12 then none else
  let nonce := r2.take 12
  let r3 := r2.drop 12
  if r3.length < 32 then none else
  some ⟨data, nonce, r3.take 32⟩

/-- The external cryptographic primitives the library calls, together
with the contracts their crates document unconditionally:
`hashRaw pw salt n` models `argon2::hash_raw` with `hash_length := n`
(`hash_len`: the output has exactly the configured length);
`aeadEncrypt`/`aeadDecrypt` model `Aes256GcmSiv::encrypt`/`decrypt`
(`enc_len`: the AEAD appends a 16-byte authentication tag;
`enc_dec`: decryption with the same key and nonce recovers the
plaintext from the ciphertext the cipher itself produced). -/
structure Primitives where
  hashRaw : List Nat → List Nat → Nat → Option (List Nat)
  aeadEncrypt : List Nat → List Nat → List Nat → Option (List Nat)
  aeadDecrypt : List Nat → List Nat → List Nat → Option (List Nat)
  hash_len : ∀ pw salt n k, hashRaw pw salt n = some k → k.length = n
  enc_len : ∀ k n p c, aeadEncrypt k n p = some c → c.length = p.length + 16
  enc_dec : ∀ k n p c, aeadEncrypt k n p = some c → aeadDecrypt k n c = some p

/-- The `hash_length` set by the `Config { hash_length: 32, .. }`
blocks at `src/lib.rs` lines 87-90 and 129-132. -/
def argonHashLength : Nat := 32

/-- The key-derivation call `argon2::hash_raw(password, &salt, &config)`
shared by `encrypt` (line 92) and `decrypt` (line 133): both build the
same config with `hash_length: 32`. -/
def deriveKey (P : Primitives) (password salt : List Nat) : Option (List Nat) :=
  P.hashRaw password salt argonHashLength

/-- `encrypt` from `src/lib.rs` lines 83-112 with the two random draws
(`salt`, 32 bytes, and `nonceRand`, 12 bytes, both from `OsRng`)
passed explicitly.  Key-derivation failure maps to
`KeyGenerationFailure`, cipher failure to `IncorrectPassword`,
serialization failure to `EncodingFailure`. -/
def encrypt (P : Primitives) (data password salt nonceRand : List Nat) :
    Except CryptographyError (List Nat) :=
  match deriveKey P password salt with
  | none => .error .keyGenerationFailure
  | some key =>
    match P.aeadEncrypt key nonceRand data with
    | none => .error .incorrectPassword
    | some ciphertext =>
      match bincodeSerialize ⟨ciphertext, nonceRand, salt⟩ with
      | none => .error .encodingFailure
      | some out => .ok out

/-- `decrypt` from `src/lib.rs` lines 126-143: deserialize (failure maps
to `DecodingFailure`), derive the key from the password and the stored
salt (failure maps to `KeyGenerationFailure`), then AEAD-decrypt with
the stored nonce (failure maps to `IncorrectPassword`). -/
def decrypt (P : Primitives) (data password : List Nat) :
    Except CryptographyError (List Nat) :=
  match bincodeDeserialize data with
  | none => .error .decodingFailure
  | some decoded =>
    match deriveKey P password decoded.salt with
    | none => .error .keyGenerationFailure
    | some key =>
      match P.aeadDecrypt key decoded.nonce decoded.data with
      | none => .error .incorrectPassword
      | some plaintext => .ok plaintext

/-- The key `decrypt` derives from a container: the stored salt fed to
the same `deriveKey` call (`src/lib.rs` lines 127-134). -/
def decryptDerivedKey (P : Primitives) (container password : List Nat) :
    Option (List Nat) :=
  (bincodeDeserialize container).bind fun decoded => deriveKey P password decoded.salt

/-- Flip bit `i % 8` of byte `i / 8` of a byte sequence. -/
def flipBit (bs : List Nat) (i : Nat) : List Nat :=
  bs.set (i / 8) (Nat.xor (bs.getD (i / 8) 0) (2 ^ (i % 8)))

instance : DecidableEq (Except CryptographyError (List Nat)) := fun a b =>
  match a, b with
  | .error e, .error e2 => if h : e = e2 then .isTrue (by rw [h]) else .isFalse (by
      intro hc; exact h (Except.error.inj hc))
  | .ok v, .ok v2 => if h : v = v2 then .isTrue (by rw [h]) else .isFalse (by
      intro hc; exact h (Except.ok.inj hc))
  | .error _, .ok _ => .isFalse (by intro hc; exact Except.noConfusion hc)
  | .ok _, .error _ => .isFalse (by intro hc; exact Except.noConfusion hc)

/-! ## Wire-format lemmas -/

theorem u64ToLEBytes_length (n : Nat) : (u64ToLEBytes n).length = 8 := by
  simp [u64ToLEBytes]

theorem u64ToLEBytes_roundtrip (n : Nat) (h : n < 2 ^ 64) :
    leBytesToU64 (u64ToLEBytes n) = n := by
  simp only [u64ToLEBytes, leBytesToU64, List.range_succ, List.range_zero,
    List.map_append, List.map_cons, List.map_nil, List.nil_append,
    List.foldr_append, List.foldr_cons, List.foldr_nil]
  norm_num
  omega

/-- `bincodeDeserialize` inverts `serializeEncryptedFile` on any file
whose nonce has 12 bytes, whose salt has 32 bytes, and whose data
length fits in a `u64`. -/
theorem deserialize_serialize (f : EncryptedFile)
    (hn : f.nonce.length = 12) (hs : f.salt.length = 32)
    (hd : f.data.length < 2 ^ 64) :
    bincodeDeserialize (serializeEncryptedFile f) = some f := by
  obtain ⟨d, n, s⟩ := f
  simp only at hn hs hd
  unfold bincodeDeserialize serializeEncryptedFile
  have hlen8 : (u64ToLEBytes d.length).length = 8 := u64ToLEBytes_length _
  have htake : ((u64ToLEBytes d.length ++ (d ++ (n ++ s))).take 8) = u64ToLEBytes d.length :=
    List.take_left' hlen8
  have hdrop : ((u64ToLEBytes d.length ++ (d ++ (n ++ s))).drop 8) = d ++ (n ++ s) :=
    List.drop_left' hlen8
  simp only [List.append_assoc, htake, hdrop, u64ToLEBytes_roundtrip d.length hd,
    List.length_append, hn, hs]
  rw [if_neg (by simp [List.length_append, hlen8])]
  rw [if_neg (by omega)]
  rw [List.take_left, List.drop_left]
  rw [if_neg (by simp [List.length_append, hn, hs])]
  rw [List.take_left' hn, List.drop_left' hn]
  rw [if_neg (by omega)]
  rw [List.take_of_length_le (le_of_eq hs)]

/-- The shape of a successful `bincodeDeserialize`: the nonce has 12
bytes, the salt 32, and the data length is the decoded prefix. -/
theorem deserialize_shape (bs : List Nat) (f : EncryptedFile)
    (h : bincodeDeserialize bs = some f) :
    f.nonce.length = 12 ∧ f.salt.length = 32 ∧
      f.data.length = leBytesToU64 (bs.take 8) ∧
      8 + f.data.length + 44 ≤ bs.length := by
  unfold bincodeDeserialize at h
  by_cases h8 : bs.length < 8
  · simp [h8] at h
  rw [if_neg h8] at h
  by_cases h1 : (bs.drop 8).length < leBytesToU64 (bs.take 8)
  · simp only [h1, if_true] at h; cases h
  rw [if_neg h1] at h
  by_cases h2 : ((bs.drop 8).drop (leBytesToU64 (bs.take 8))).length < 12
  · simp only [h2, if_true] at h; cases h
  rw [if_neg h2] at h
  by_cases h3 : (((bs.drop 8).drop (leBytesToU64 (bs.take 8))).drop 12).length < 32
  · simp only [h3, if_true] at h; cases h
  rw [if_neg h3] at h
  cases h
  simp only [List.length_take, List.length_drop] at h1 h2 h3 ⊢
  refine ⟨by omega, by omega, by omega, by omega⟩

/-- Any input shorter than 52 bytes (the empty container: 8-byte
length, no data, 12-byte nonce, 32-byte salt) fails to deserialize. -/
theorem deserialize_short (bs : List Nat) (h : bs.length < 52) :
    bincodeDeserialize bs = none := by
  by_cases hf : bincodeDeserialize bs = none
  · exact hf
  · obtain ⟨f, hf⟩ := Option.ne_none_iff_exists'.mp hf
    have := deserialize_shape bs f hf
    omega

/-- Closed form of a successful `bincodeDeserialize` when the input is
long enough for the decoded length prefix. -/
theorem deserialize_eq_of_le (bs : List Nat)
    (h : 8 + leBytesToU64 (bs.take 8) + 44 ≤ bs.length) :
    bincodeDeserialize bs = some ⟨(bs.drop 8).take (leBytesToU64 (bs.take 8)),
      ((bs.drop 8).drop (leBytesToU64 (bs.take 8))).take 12,
      (((bs.drop 8).drop (leBytesToU64 (bs.take 8))).drop 12).take 32⟩ := by
  unfold bincodeDeserialize
  rw [if_neg (by omega), if_neg, if_neg, if_neg] <;>
    simp only [List.length_drop, Nat.not_lt] <;> omega

/-- Appending trailing bytes to a container that deserializes
successfully does not change the result of deserialization (bincode's
free `deserialize` allows trailing bytes). -/
theorem deserialize_append (B t : List Nat) (f : EncryptedFile)
    (h : bincodeDeserialize B = some f) :
    bincodeDeserialize (B ++ t) = some f := by
  obtain ⟨-, -, hdlen, hle⟩ := deserialize_shape B f h
  rw [hdlen] at hle
  have h8 : 8 ≤ B.length := by omega
  have htake8 : (B ++ t).take 8 = B.take 8 := List.take_append_of_le_length h8
  have hlen : leBytesToU64 ((B ++ t).take 8) = leBytesToU64 (B.take 8) := by rw [htake8]
  have hdata : leBytesToU64 (B.take 8) ≤ (B.drop 8).length := by
    simp only [List.length_drop]; omega
  have h44 : 12 + 32 ≤ ((B.drop 8).drop (leBytesToU64 (B.take 8))).length := by
    simp only [List.length_drop]; omega
  have hBt : bincodeDeserialize (B ++ t) =
      some ⟨((B ++ t).drop 8).take (leBytesToU64 ((B ++ t).take 8)),
        (((B ++ t).drop 8).drop (leBytesToU64 ((B ++ t).take 8))).take 12,
        ((((B ++ t).drop 8).drop (leBytesToU64 ((B ++ t).take 8))).drop 12).take 32⟩ :=
    deserialize_eq_of_le (B ++ t) (by
      rw [hlen]; simp only [List.length_append]; omega)
  have hdrop8 : (B ++ t).drop 8 = B.drop 8 ++ t := List.drop_append_of_le_length h8
  rw [deserialize_eq_of_le B (by omega)] at h
  rw [hBt, hlen, hdrop8, List.take_append_of_le_length hdata,
    List.drop_append_of_le_length hdata,
    List.take_append_of_le_length (by simp only [List.length_drop]; omega),
    List.drop_append_of_le_length (by simp only [List.length_drop]; omega),
    List.take_append_of_le_length (by simp only [List.length_drop]; omega)]
  exact h

/-! ## A concrete instantiation of the primitives

Used to exhibit witnesses: a toy key-derivation function and a toy
AEAD satisfying the `Primitives` contracts (deterministic hash of the
configured length; ciphertext = plaintext plus a 16-byte tag checked
on decryption). -/

/-- Toy key derivation: `n` copies of a byte mixing password and salt. -/
def toyHashRaw (pw salt : List Nat) (n : Nat) : Option (List Nat) :=
  some (List.replicate n ((pw.sum * 3 + salt.sum + 7) % 256))

/-- Toy 16-byte authentication tag over key, nonce and message. -/
def toyTag (key nonce m : List Nat) : List Nat :=
  List.replicate 16 ((key.sum * 5 + nonce.sum * 3 + m.sum + m.length) % 256)

/-- Toy AEAD encryption: append the tag. -/
def toyAeadEncrypt (key nonce p : List Nat) : Option (List Nat) :=
  some (p ++ toyTag key nonce p)

/-- Toy AEAD decryption: strip the final 16 bytes and check the tag. -/
def toyAeadDecrypt (key nonce c : List Nat) : Option (List Nat) :=
  if 16 ≤ c.length ∧ c = c.take (c.length - 16) ++ toyTag key nonce (c.take (c.length - 16))
  then some (c.take (c.length - 16)) else none

theorem toyTag_length (key nonce m : List Nat) : (toyTag key nonce m).length = 16 := by
  simp [toyTag]

theorem toy_hash_len (pw salt : List Nat) (n : Nat) (k : List Nat)
    (h : toyHashRaw pw salt n = some k) : k.length = n := by
  simp only [toyHashRaw, Option.some.injEq] at h
  simp [← h]

theorem toy_enc_len (k n p c : List Nat) (h : toyAeadEncrypt k n p = some c) :
    c.length = p.length + 16 := by
  simp only [toyAeadEncrypt, Option.some.injEq] at h
  simp [← h, toyTag_length]

theorem toy_enc_dec (k n p c : List Nat) (h : toyAeadEncrypt k n p = some c) :
    toyAeadDecrypt k n c = some p := by
  simp only [toyAeadEncrypt, Option.some.injEq] at h
  subst h
  have htake : (p ++ toyTag k n p).take ((p ++ toyTag k n p).length - 16) = p := by
    rw [show (p ++ toyTag k n p).length - 16 = p.length by simp [toyTag_length]]
    exact List.take_left _ _
  unfold toyAeadDecrypt
  rw [htake, if_pos ⟨by simp [toyTag_length], rfl⟩]

/-- The toy primitives bundled with proofs of the contracts. -/
def toyP : Primitives where
  hashRaw := toyHashRaw
  aeadEncrypt := toyAeadEncrypt
  aeadDecrypt := toyAeadDecrypt
  hash_len := toy_hash_len
  enc_len := toy_enc_len
  enc_dec := toy_enc_dec

/-- A variant of the toy primitives whose key derivation always fails,
exhibiting the `KeyGenerationFailure` path of `encrypt`. -/
def toyNoHashP : Primitives where
  hashRaw := fun _ _ _ => none
  aeadEncrypt := toyAeadEncrypt
  aeadDecrypt := toyAeadDecrypt
  hash_len := by intro pw salt n k h; cases h
  enc_len := toy_enc_len
  enc_dec := toy_enc_dec

/-- A variant of the toy primitives whose AEAD encryption always
fails, exhibiting the `IncorrectPassword` path of `encrypt`. -/
def toyNoEncP : Primitives where
  hashRaw := toyHashRaw
  aeadEncrypt := fun _ _ _ => none
  aeadDecrypt := toyAeadDecrypt
  hash_len := toy_hash_len
  enc_len := by intro k n p c h; cases h
  enc_dec := by intro k n p c h; cases h

/-! ## Characterisations of `encrypt` and `decrypt` -/

/-- `encrypt` succeeds exactly when key derivation and AEAD encryption
succeed, and then the output is the serialized container of the
ciphertext, nonce and salt. -/
theorem encrypt_ok_iff (P : Primitives) (p pw salt nonce B : List Nat) :
    encrypt P p pw salt nonce = .ok B ↔
      ∃ key c, deriveKey P pw salt = some key ∧ P.aeadEncrypt key nonce p = some c ∧
        B = serializeEncryptedFile ⟨c, nonce, salt⟩ := by
  unfold encrypt bincodeSerialize
  cases hk : deriveKey P pw salt with
  | none => simp [hk]
  | some key =>
    cases hc : P.aeadEncrypt key nonce p with
    | none => simp [hk, hc]
    | some c => simp [hk, hc, eq_comm]

/-- `decrypt` on bytes that deserialize to the given components. -/
theorem decrypt_components (P : Primitives) (bs pw c n s : List Nat)
    (h : bincodeDeserialize bs = some ⟨c, n, s⟩) :
    decrypt P bs pw =
      match deriveKey P pw s with
      | none => .error .keyGenerationFailure
      | some key =>
        match P.aeadDecrypt key n c with
        | none => .error .incorrectPassword
        | some plaintext => .ok plaintext := by
  unfold decrypt
  rw [h]

/-! ## Sample values used by the witnesses -/

/-- A 32-byte all-zero salt draw. -/
def sampleSalt : List Nat := List.replicate 32 0

/-- A 12-byte all-zero nonce draw. -/
def sampleNonce : List Nat := List.replicate 12 0

/-- A one-byte sample plaintext. -/
def samplePlain : List Nat := [5]

/-- A one-byte sample password. -/
def samplePw : List Nat := [0]

/-- The container the toy primitives seal `samplePlain` into. -/
def sampleSealed : List Nat :=
  (encrypt toyP samplePlain samplePw sampleSalt sampleNonce).toOption.getD []

/-! ## Claims -/

/-- The round-trip fact, shared by the round-trip and
non-determinism claims. -/
theorem roundtrip_aux (P : Primitives) (p pw salt nonce B : List Nat)
    (hs : salt.length = 32) (hn : nonce.length = 12) (hp : p.length + 16 < 2 ^ 64)
    (hB : encrypt P p pw salt nonce = .ok B) :
    decrypt P B pw = .ok p := by
  obtain ⟨key, c, hk, hc, hBv⟩ := (encrypt_ok_iff P p pw salt nonce B).mp hB
  subst hBv
  have hclen : c.length < 2 ^ 64 := by rw [P.enc_len key nonce p c hc]; omega
  rw [decrypt_components P _ pw c nonce salt
    (deserialize_serialize ⟨c, nonce, salt⟩ hn hs hclen)]
  simp only [hk, P.enc_dec key nonce p c hc]

/-- C1: for every plaintext `p` (including the empty sequence), every
password, and any values of the random salt (32 bytes) and nonce
(12 bytes) consumed by seal, decrypting the output of a successful
encrypt with the same password returns exactly `p`.  (The hypothesis
`p.length + 16 < 2 ^ 64` reflects that a Rust `Vec` length is a
`usize`.) -/
theorem seal_open_roundtrip (P : Primitives) (p pw salt nonce B : List Nat)
    (hs : salt.length = 32) (hn : nonce.length = 12) (hp : p.length + 16 < 2 ^ 64)
    (hB : encrypt P p pw salt nonce = .ok B) :
    decrypt P B pw = .ok p :=
  roundtrip_aux P p pw salt nonce B hs hn hp hB

/-- Witness for C1 at concrete inputs under the toy primitives. -/
theorem seal_open_roundtrip_witness :
    decrypt toyP sampleSealed samplePw = .ok samplePlain :=
  seal_open_roundtrip toyP samplePlain samplePw sampleSalt sampleNonce sampleSealed
    (by decide) (by decide) (by decide) (by decide)

/-- C4: serialization round-trips losslessly: for every ciphertext
`c` (of `usize` length), every 12-byte nonce and every 32-byte salt,
deserializing the serialized container yields exactly the same three
fields. -/
theorem pack_unpack_roundtrip (c n s : List Nat)
    (hn : n.length = 12) (hs : s.length = 32) (hc : c.length < 2 ^ 64) :
    bincodeDeserialize (serializeEncryptedFile ⟨c, n, s⟩) = some ⟨c, n, s⟩ :=
  deserialize_serialize ⟨c, n, s⟩ hn hs hc

/-- Witness for C4 at concrete inputs. -/
theorem pack_unpack_roundtrip_witness :
    bincodeDeserialize (serializeEncryptedFile
      ⟨[9, 200], List.replicate 12 1, List.replicate 32 2⟩) =
      some ⟨[9, 200], List.replicate 12 1, List.replicate 32 2⟩ :=
  pack_unpack_roundtrip [9, 200] (List.replicate 12 1) (List.replicate 32 2)
    (by decide) (by decide) (by decide)

/-- C3: every input that is not a well-formed container (in particular
every input shorter than the 52-byte minimum, hence every input of
fewer than 44 bytes, including the empty one) makes `decrypt` return
`DecodingFailure` — for every password and, since the result is proved
for every choice of `Primitives`, before and independently of any key
derivation or decryption. -/
theorem malformed_rejected (P : Primitives) (bs pw : List Nat) :
    (bs.length < 52 → bincodeDeserialize bs = none) ∧
      (bincodeDeserialize bs = none → decrypt P bs pw = .error .decodingFailure) := by
  refine ⟨deserialize_short bs, fun h => ?_⟩
  unfold decrypt
  rw [h]

/-- Witness for C3 on the empty input. -/
theorem malformed_rejected_witness :
    bincodeDeserialize ([] : List Nat) = none ∧
      decrypt toyP [] samplePw = .error .decodingFailure :=
  ⟨(malformed_rejected toyP [] samplePw).1 (by decide),
   (malformed_rejected toyP [] samplePw).2
     ((malformed_rejected toyP [] samplePw).1 (by decide))⟩

/-- C10: `decrypt` ignores trailing bytes: appending any suffix to a
well-formed container leaves the result of `decrypt` unchanged, for
every password and every choice of primitives. -/
theorem trailing_bytes_ignored (P : Primitives) (B t pw : List Nat) (f : EncryptedFile)
    (hB : bincodeDeserialize B = some f) :
    decrypt P (B ++ t) pw = decrypt P B pw := by
  unfold decrypt
  rw [deserialize_append B t f hB, hB]

/-- Witness for C10: three junk bytes after a sealed container. -/
theorem trailing_bytes_ignored_witness :
    decrypt toyP (sampleSealed ++ [1, 2, 3]) samplePw = decrypt toyP sampleSealed samplePw :=
  trailing_bytes_ignored toyP sampleSealed [1, 2, 3] samplePw
    ⟨samplePlain ++ toyTag (List.replicate 32 7) sampleNonce samplePlain,
      sampleNonce, sampleSalt⟩ (by decide)

/-- C2: decrypting a sealed container with a different password yields
`IncorrectPassword` and never a successful decryption.  The spec's
"with overwhelming probability — no false accepts" is formalised by the
hypothesis `hauth`: the AEAD rejects the ciphertext under the key the
wrong password derives (and `hk2`: argon2 succeeds, as it always does
under the library's fixed valid configuration). -/
theorem wrong_password_rejected (P : Primitives) (p pw1 pw2 salt nonce B k2 : List Nat)
    (hs : salt.length = 32) (hn : nonce.length = 12) (hp : p.length + 16 < 2 ^ 64)
    (hpw : pw1 ≠ pw2)
    (hB : encrypt P p pw1 salt nonce = .ok B)
    (hk2 : deriveKey P pw2 salt = some k2)
    (hauth : ∀ c k1, deriveKey P pw1 salt = some k1 → P.aeadEncrypt k1 nonce p = some c →
      P.aeadDecrypt k2 nonce c = none) :
    decrypt P B pw2 = .error .incorrectPassword := by
  obtain ⟨k1, c, hk1, hc, hBv⟩ := (encrypt_ok_iff P p pw1 salt nonce B).mp hB
  subst hBv
  have hclen : c.length < 2 ^ 64 := by rw [P.enc_len k1 nonce p c hc]; omega
  rw [decrypt_components P _ pw2 c nonce salt
    (deserialize_serialize ⟨c, nonce, salt⟩ hn hs hclen)]
  simp only [hk2, hauth c k1 hk1 hc]

/-- Witness for C2: the toy primitives reject the sample container
under the password `[1]` when it was sealed under `[0]`. -/
theorem wrong_password_rejected_witness :
    decrypt toyP sampleSealed [1] = .error .incorrectPassword :=
  wrong_password_rejected toyP samplePlain samplePw [1] sampleSalt sampleNonce sampleSealed
    (List.replicate 32 10) (by decide) (by decide) (by decide) (by decide) (by decide)
    (by decide)
    (by intro c k1 h1 h2; cases h1; cases h2; decide)

/-- C5: flipping any single bit of a sealed container makes `decrypt`
with the original password return `IncorrectPassword` or
`DecodingFailure`, never a success (in particular never some other
plaintext).  `hkd` captures that argon2 succeeds on every 32-byte
salt; `hauth` is the idealised authentication guarantee ("with
overwhelming probability" in the spec): the AEAD rejects the tampered
components. -/
theorem tamper_detected (P : Primitives) (p pw salt nonce B : List Nat) (i : Nat)
    (hs : salt.length = 32) (hn : nonce.length = 12)
    (hB : encrypt P p pw salt nonce = .ok B) (hi : i < 8 * B.length)
    (hkd : ∀ s2, s2.length = 32 → deriveKey P pw s2 ≠ none)
    (hauth : ∀ c2 n2 s2 k, bincodeDeserialize (flipBit B i) = some ⟨c2, n2, s2⟩ →
      deriveKey P pw s2 = some k → P.aeadDecrypt k n2 c2 = none) :
    decrypt P (flipBit B i) pw = .error .incorrectPassword ∨
      decrypt P (flipBit B i) pw = .error .decodingFailure := by
  cases hdes : bincodeDeserialize (flipBit B i) with
  | none =>
    right
    unfold decrypt
    rw [hdes]
  | some f =>
    left
    obtain ⟨c2, n2, s2⟩ := f
    obtain ⟨-, hs2, -, -⟩ := deserialize_shape _ _ hdes
    cases hk : deriveKey P pw s2 with
    | none => exact absurd hk (hkd s2 hs2)
    | some k =>
      rw [decrypt_components P _ pw c2 n2 s2 hdes]
      simp only [hk, hauth c2 n2 s2 k hdes hk]

/-- Witness for C5: flipping bit 7 (the top bit of the first length
byte) of the sample container yields `DecodingFailure`. -/
theorem tamper_detected_witness :
    decrypt toyP (flipBit sampleSealed 7) samplePw = .error .incorrectPassword ∨
      decrypt toyP (flipBit sampleSealed 7) samplePw = .error .decodingFailure :=
  tamper_detected toyP samplePlain samplePw sampleSalt sampleNonce sampleSealed 7
    (by decide) (by decide) (by decide) (by decide)
    (by
      intro s2 h2 h
      simp [deriveKey, toyP, toyHashRaw] at h)
    (by
      intro c2 n2 s2 k hf
      rw [show bincodeDeserialize (flipBit sampleSealed 7) = none from by decide] at hf
      cases hf)

/-- C6: key derivation is a deterministic function of (password, salt)
returning exactly 32 bytes (the configured `hash_length`), and the
salt stored in a sealed container is recovered verbatim by `decrypt`,
which feeds it to the very same `deriveKey` — so the key is
reconstructable from the container and the password alone. -/
theorem derive_key_contract (P : Primitives) (p pw salt nonce B : List Nat)
    (hs : salt.length = 32) (hn : nonce.length = 12) (hp : p.length + 16 < 2 ^ 64)
    (hB : encrypt P p pw salt nonce = .ok B) :
    (∀ k1 k2, deriveKey P pw salt = some k1 → deriveKey P pw salt = some k2 → k1 = k2) ∧
      (∀ k, deriveKey P pw salt = some k → k.length = 32) ∧
      (∀ pw2, decryptDerivedKey P B pw2 = deriveKey P pw2 salt) := by
  obtain ⟨key, c, hk, hc, hBv⟩ := (encrypt_ok_iff P p pw salt nonce B).mp hB
  subst hBv
  have hclen : c.length < 2 ^ 64 := by rw [P.enc_len key nonce p c hc]; omega
  refine ⟨?_, ?_, ?_⟩
  · intro k1 k2 h1 h2
    rw [h1] at h2
    exact Option.some.inj h2
  · intro k hk0
    exact P.hash_len pw salt argonHashLength k hk0
  · intro pw2
    unfold decryptDerivedKey
    rw [deserialize_serialize ⟨c, nonce, salt⟩ hn hs hclen]
    rfl

/-- Witness for C6 at the sample inputs. -/
theorem derive_key_contract_witness :
    (∀ k1 k2, deriveKey toyP samplePw sampleSalt = some k1 →
      deriveKey toyP samplePw sampleSalt = some k2 → k1 = k2) ∧
      (∀ k, deriveKey toyP samplePw sampleSalt = some k → k.length = 32) ∧
      (∀ pw2, decryptDerivedKey toyP sampleSealed pw2 = deriveKey toyP pw2 sampleSalt) :=
  derive_key_contract toyP samplePlain samplePw sampleSalt sampleNonce sampleSealed
    (by decide) (by decide) (by decide) (by decide)

/-- C7: two seals of the same plaintext under the same password with
distinct random draws (different salt or different nonce) produce
different byte outputs, and both outputs decrypt back to the
plaintext under that password. -/
theorem seal_nondeterministic (P : Primitives) (p pw s1 n1 s2 n2 B1 B2 : List Nat)
    (hs1 : s1.length = 32) (hn1 : n1.length = 12)
    (hs2 : s2.length = 32) (hn2 : n2.length = 12)
    (hp : p.length + 16 < 2 ^ 64)
    (hdraw : ¬(s1 = s2 ∧ n1 = n2))
    (h1 : encrypt P p pw s1 n1 = .ok B1) (h2 : encrypt P p pw s2 n2 = .ok B2) :
    B1 ≠ B2 ∧ decrypt P B1 pw = .ok p ∧ decrypt P B2 pw = .ok p := by
  refine ⟨?_, roundtrip_aux P p pw s1 n1 B1 hs1 hn1 hp h1,
    roundtrip_aux P p pw s2 n2 B2 hs2 hn2 hp h2⟩
  intro heq
  obtain ⟨k1, c1, hk1, hc1, hB1⟩ := (encrypt_ok_iff P p pw s1 n1 B1).mp h1
  obtain ⟨k2, c2, hk2, hc2, hB2⟩ := (encrypt_ok_iff P p pw s2 n2 B2).mp h2
  have hd1 : bincodeDeserialize B1 = some ⟨c1, n1, s1⟩ := by
    rw [hB1]
    exact deserialize_serialize _ hn1 hs1 (by rw [P.enc_len k1 n1 p c1 hc1]; omega)
  have hd2 : bincodeDeserialize B2 = some ⟨c2, n2, s2⟩ := by
    rw [hB2]
    exact deserialize_serialize _ hn2 hs2 (by rw [P.enc_len k2 n2 p c2 hc2]; omega)
  rw [heq, hd2] at hd1
  obtain ⟨-, hnn, hss⟩ := EncryptedFile.mk.injEq .. ▸ Option.some.inj hd1
  exact hdraw ⟨hss.symm, hnn.symm⟩

/-- Witness for C7: sealing with the all-zero draws and with an
all-one salt draw gives distinct containers, both decrypting back. -/
theorem seal_nondeterministic_witness :
    sampleSealed ≠ (encrypt toyP samplePlain samplePw (List.replicate 32 1) sampleNonce).toOption.getD [] ∧
      decrypt toyP sampleSealed samplePw = .ok samplePlain ∧
      decrypt toyP ((encrypt toyP samplePlain samplePw (List.replicate 32 1) sampleNonce).toOption.getD []) samplePw = .ok samplePlain :=
  seal_nondeterministic toyP samplePlain samplePw sampleSalt sampleNonce
    (List.replicate 32 1) sampleNonce sampleSealed
    ((encrypt toyP samplePlain samplePw (List.replicate 32 1) sampleNonce).toOption.getD [])
    (by decide) (by decide) (by decide) (by decide) (by decide) (by decide)
    (by decide) (by decide)

/-- C8: `encrypt` classifies its failures by stage: a key-derivation
failure yields `KeyGenerationFailure` (whatever the later stages
would do), a cipher failure after successful derivation yields
`IncorrectPassword`, and any error it returns is one of
`KeyGenerationFailure`, `IncorrectPassword`, `EncodingFailure` — in
particular never `DecodingFailure`.  (The third listed kind,
`EncodingFailure`, is the classification of a `bincode::serialize`
failure, a branch that is unreachable in the model because
serialization of the container is total.) -/
theorem seal_error_classification (P : Primitives) (p pw salt nonce : List Nat) :
    (deriveKey P pw salt = none → encrypt P p pw salt nonce = .error .keyGenerationFailure) ∧
      (∀ key, deriveKey P pw salt = some key → P.aeadEncrypt key nonce p = none →
        encrypt P p pw salt nonce = .error .incorrectPassword) ∧
      (∀ e, encrypt P p pw salt nonce = .error e →
        e = .keyGenerationFailure ∨ e = .incorrectPassword ∨ e = .encodingFailure) := by
  refine ⟨fun h => ?_, fun key hk hc => ?_, fun e he => ?_⟩
  · simp only [encrypt, h]
  · simp only [encrypt, hk, hc]
  · unfold encrypt bincodeSerialize at he
    cases hk : deriveKey P pw salt with
    | none =>
      simp only [hk] at he
      exact Or.inl (Except.error.inj he).symm
    | some key =>
      cases hc : P.aeadEncrypt key nonce p with
      | none =>
        simp only [hk, hc] at he
        exact Or.inr (Or.inl (Except.error.inj he).symm)
      | some c =>
        simp only [hk, hc] at he
        exact Except.noConfusion he

/-- Witness for C8: a derivation-failing instance yields
`KeyGenerationFailure`; a cipher-failing instance yields
`IncorrectPassword`. -/
theorem seal_error_classification_witness :
    encrypt toyNoHashP samplePlain samplePw sampleSalt sampleNonce = .error .keyGenerationFailure ∧
      encrypt toyNoEncP samplePlain samplePw sampleSalt sampleNonce = .error .incorrectPassword :=
  ⟨(seal_error_classification toyNoHashP samplePlain samplePw sampleSalt sampleNonce).1 rfl,
   (seal_error_classification toyNoEncP samplePlain samplePw sampleSalt sampleNonce).2.1
     (List.replicate 32 7) (by decide) rfl⟩

/-- C9: a successful seal of `p` outputs exactly `p.length + 68`
bytes: an 8-byte little-endian length holding `p.length + 16`, the
`p.length + 16` ciphertext bytes (AEAD output, 16-byte tag appended),
the 12 nonce bytes, then the 32 salt bytes. -/
theorem sealed_layout (P : Primitives) (p pw salt nonce B : List Nat)
    (hs : salt.length = 32) (hn : nonce.length = 12) (hp : p.length + 16 < 2 ^ 64)
    (hB : encrypt P p pw salt nonce = .ok B) :
    B.length = p.length + 68 ∧
      leBytesToU64 (B.take 8) = p.length + 16 ∧
      ∃ key c, deriveKey P pw salt = some key ∧ P.aeadEncrypt key nonce p = some c ∧
        c.length = p.length + 16 ∧
        B = u64ToLEBytes (p.length + 16) ++ c ++ nonce ++ salt := by
  obtain ⟨key, c, hk, hc, hBv⟩ := (encrypt_ok_iff P p pw salt nonce B).mp hB
  have hcl : c.length = p.length + 16 := P.enc_len key nonce p c hc
  subst hBv
  refine ⟨?_, ?_, key, c, hk, hc, hcl, ?_⟩
  · simp only [serializeEncryptedFile, List.length_append, u64ToLEBytes_length]
    simp only [hcl, hn, hs]
    omega
  · unfold serializeEncryptedFile
    rw [List.append_assoc, List.append_assoc, List.take_left' (u64ToLEBytes_length _)]
    simp only [hcl, u64ToLEBytes_roundtrip _ hp]
  · simp [serializeEncryptedFile, hcl]

/-- Witness for C9 at the sample inputs. -/
theorem sealed_layout_witness :
    sampleSealed.length = samplePlain.length + 68 ∧
      leBytesToU64 (sampleSealed.take 8) = samplePlain.length + 16 ∧
      ∃ key c, deriveKey toyP samplePw sampleSalt = some key ∧
        toyP.aeadEncrypt key sampleNonce samplePlain = some c ∧
        c.length = samplePlain.length + 16 ∧
        sampleSealed = u64ToLEBytes (samplePlain.length + 16) ++ c ++ sampleNonce ++ sampleSalt :=
  sealed_layout toyP samplePlain samplePw sampleSalt sampleNonce sampleSealed
    (by decide) (by decide) (by decide) (by decide)

end Tinycrypt
